import Mathlib

/-!
Verification of the core algorithms of the Agentic Personalized Neural Search
Engine: hybrid retrieval normalization and truncation, the co-occurrence
recommender, user segmentation, personalization re-ranking, the learned-ranker
re-ranking stage, and the offline ranking metrics.

Numeric modelling conventions, used throughout:

* Python floats are modelled as exact rationals (`ℚ`); the metric `ndcg_at_k`
  additionally needs real logarithms and is therefore modelled over `ℝ`.
* External learned models (the sentence encoder, the BM25 scorer over a fitted
  corpus, the LightGBM ranker) are opaque scoring oracles; their numeric
  outputs enter the embedded functions as explicit arguments.
* `np.argsort` (default kind), `pandas.sort_values` (default kind) and
  `Counter.most_common` order equal keys in an implementation-defined way.
  The embedding fixes the stable representative of that family (equal keys
  keep their original relative order).  No theorem below relies on the
  representative's tie order except where the source itself guarantees it
  (Python's `sorted` is specified to be stable).
* Operations that raise in Python/numpy on degenerate input (reduction of an
  empty array, division by zero) are modelled in an `Except` error monad.
-/

namespace SearchEngine

/-- Insertion step of the stable descending sort: the inserted element
comes from earlier in the original list than everything already inserted,
so on an equal key it is placed first. -/
def insertDescBy {α β : Type} [LinearOrder β] (key : α → β) (x : α) :
    List α → List α
  | [] => [x]
  | y :: ys => if key y ≤ key x then x :: y :: ys else y :: insertDescBy key x ys

/-- Stable sort of a list into descending order of a key.
Equal keys keep their original relative order. -/
def sortDescBy {α β : Type} [LinearOrder β] (key : α → β) : List α → List α
  | [] => []
  | x :: xs => insertDescBy key x (sortDescBy key xs)

/-- Insertion step of the stable ascending sort. -/
def insertAscBy {α β : Type} [LinearOrder β] (key : α → β) (x : α) :
    List α → List α
  | [] => [x]
  | y :: ys => if key x ≤ key y then x :: y :: ys else y :: insertAscBy key x ys

/-- Stable sort of a list into ascending order of a key. -/
def sortAscBy {α β : Type} [LinearOrder β] (key : α → β) : List α → List α
  | [] => []
  | x :: xs => insertAscBy key x (sortAscBy key xs)

/-- Stable sort of a list of integers into descending order
(models Python `sorted(xs, reverse=True)`). -/
def sortDescInt (l : List ℤ) : List ℤ :=
  sortDescBy (fun r => r) l

/-- Accumulator pass of `dedupFirst`: keep an element exactly when it has
not been seen before. -/
def dedupFirstAux (seen : List String) : List String → List String
  | [] => []
  | x :: xs =>
    if x ∈ seen then dedupFirstAux seen xs
    else x :: dedupFirstAux (x :: seen) xs

/-- Order-preserving deduplication keeping the first occurrence of each
element (models Python `list(dict.fromkeys(xs))`). -/
def dedupFirst (l : List String) : List String :=
  dedupFirstAux [] l

/-- Python slice `xs[-n:]`.  For `n = 0` Python's `xs[-0:]` is `xs[0:]`,
that is the whole list, not the empty list. -/
def pyTakeLast {α : Type} (n : ℕ) (xs : List α) : List α :=
  if n = 0 then xs else xs.drop (xs.length - n)

/-- Dot product of two rational vectors (models `np.dot` on equal-length
float vectors). -/
def dot (u v : List ℚ) : ℚ :=
  (List.zipWith (· * ·) u v).sum

/-- Failure modes of the numpy-level operations used by `retrieve`:
reduction (`.max()` / `.min()`) of an empty array raises, and a float
division with zero denominator is the fault the spec rules out. -/
inductive NpError where
  | emptyReduce
  | divByZero
deriving DecidableEq, Repr

instance {ε α : Type} [DecidableEq ε] [DecidableEq α] : DecidableEq (Except ε α) :=
  fun x y =>
    match x, y with
    | .ok a, .ok b =>
      if h : a = b then isTrue (by rw [h]) else isFalse (by intro c; cases c; exact h rfl)
    | .ok _, .error _ => isFalse (by intro c; cases c)
    | .error _, .ok _ => isFalse (by intro c; cases c)
    | .error e, .error f =>
      if h : e = f then isTrue (by rw [h]) else isFalse (by intro c; cases c; exact h rfl)

/-- Maximum of a numpy array: raises on an empty array. -/
def npMax (l : List ℚ) : Except NpError ℚ :=
  match l with
  | [] => .error .emptyReduce
  | x :: xs => .ok (xs.foldl max x)

/-- Minimum of a numpy array: raises on an empty array. -/
def npMin (l : List ℚ) : Except NpError ℚ :=
  match l with
  | [] => .error .emptyReduce
  | x :: xs => .ok (xs.foldl min x)

/-- Division that faults (instead of defaulting) when the denominator is
zero, so that freedom from division-by-zero is an actual theorem. -/
def checkedDiv (x y : ℚ) : Except NpError ℚ :=
  if y = 0 then .error .divByZero else .ok (x / y)

/-- Elementwise checked computation over a list that faults as a whole when
any element faults (a vectorized numpy expression). -/
def mapExc {ε α β : Type} (f : α → Except ε β) : List α → Except ε (List β)
  | [] => .ok []
  | x :: xs =>
    match f x with
    | .error e => .error e
    | .ok y =>
      match mapExc f xs with
      | .error e => .error e
      | .ok ys => .ok (y :: ys)

namespace RetrievalAgent

/-- Per-candidate outcome of `RetrievalAgent.retrieve`
(dataclass `RetrievalResult`). -/
structure RetrievalResult where
  product_id : String
  bm25_score : ℚ
  cosine_similarity : ℚ
  hybrid_score : ℚ
deriving DecidableEq, Repr

/-- BM25 normalization step of `retrieve`:
`bm25_norm = bm25_scores / bm25_scores.max() if bm25_scores.max() > 0 else bm25_scores`.
The `.max()` reduction raises on an empty catalog; the division is checked. -/
def bm25Normalize (bm25_scores : List ℚ) : Except NpError (List ℚ) :=
  match npMax bm25_scores with
  | .error e => .error e
  | .ok m =>
    if 0 < m then mapExc (fun s => checkedDiv s m) bm25_scores
    else .ok bm25_scores

/-- Dense normalization step of `retrieve`:
`dense_norm = (dense - dmin) / (dmax - dmin) if dmax > dmin else dense`. -/
def denseNormalize (dense : List ℚ) : Except NpError (List ℚ) :=
  match npMin dense with
  | .error e => .error e
  | .ok dmin =>
    match npMax dense with
    | .error e => .error e
    | .ok dmax =>
      if dmin < dmax then mapExc (fun s => checkedDiv (s - dmin) (dmax - dmin)) dense
      else .ok dense

/-- Indices `0, …, n-1` ordered by descending value of `v`
(models `np.argsort(-hybrid)`; numpy's default sort kind returns the
indices of a permutation placing the values in order, with an
implementation-defined tie order — this is the stable representative). -/
def argsortDesc (v : List ℚ) : List ℕ :=
  sortDescBy (fun i => v.getD i 0) (List.range v.length)

/-- Core of `RetrievalAgent.retrieve` (lines 78–108): score normalization
over the full catalog, hybrid fusion, and truncation to `top_k`.
The raw per-position BM25 scores and dense similarities are the outputs of
the fitted lexical/dense scoring oracles for the query. -/
def retrieve (id_by_pos : List String) (bm25_scores dense : List ℚ)
    (top_k : ℕ) (alpha : ℚ) : Except NpError (List RetrievalResult) :=
  match bm25Normalize bm25_scores with
  | .error e => .error e
  | .ok bm25_norm =>
    match denseNormalize dense with
    | .error e => .error e
    | .ok dense_norm =>
      let hybrid := List.zipWith (fun b d => alpha * b + (1 - alpha) * d) bm25_norm dense_norm
      let top_idx := (argsortDesc hybrid).take top_k
      .ok (top_idx.map (fun i =>
        { product_id := id_by_pos.getD i ""
          bm25_score := bm25_norm.getD i 0
          cosine_similarity := dense_norm.getD i 0
          hybrid_score := hybrid.getD i 0 }))

end RetrievalAgent

/-- One row of the interaction table:
`(user_id, product_id, event_type, timestamp)`. -/
structure Interaction where
  user_id : String
  product_id : String
  event_type : String
  timestamp : ℕ
deriving DecidableEq, Repr

/-- Implicit-positive events, `event_type.isin(["click", "cart", "purchase"])`. -/
def isPositive (e : String) : Bool :=
  e == "click" || e == "cart" || e == "purchase"

/-- Implicit-positive rows sorted by timestamp
(`data = interactions[isin(...)].sort_values("timestamp")`; the pandas
default sort kind orders equal timestamps in an implementation-defined way,
embedded here as the stable representative). -/
def positivesSorted (interactions : List Interaction) : List Interaction :=
  sortAscBy (·.timestamp) (interactions.filter (fun i => isPositive i.event_type))

namespace RecommendationAgent

/-- Product sequence of one user's implicit-positive history in timestamp
order (`data.groupby("user_id")["product_id"].apply(list)` at key `u`). -/
def history (interactions : List Interaction) (u : String) : List String :=
  ((positivesSorted interactions).filter (fun i => i.user_id == u)).map (·.product_id)

/-- The distinct users appearing in the filtered interaction table
(the keys of the `groupby`; their order does not matter to any result
below, as they key disjoint per-user updates). -/
def usersOf (interactions : List Interaction) : List String :=
  dedupFirst ((positivesSorted interactions).map (·.user_id))

/-- `self.user_recent_items[u] = deduped[-max_recent_items:]`. -/
def user_recent_items (interactions : List Interaction) (max_recent_items : ℕ)
    (u : String) : List String :=
  pyTakeLast max_recent_items (dedupFirst (history interactions u))

/-- Number of increments the double loop over `deduped` contributes to the
counter cell `(a, b)` for one user's list: ordered position pairs `i < j`
matching `(a, b)` in either orientation, skipping equal items. -/
def pairCount : List String → String → String → ℕ
  | [], _, _ => 0
  | x :: xs, a, b =>
    xs.countP (fun y => decide (((x = a ∧ y = b) ∨ (x = b ∧ y = a)) ∧ x ≠ y))
      + pairCount xs a b

/-- `self.co_counts[a][b]` after `fit`: the pair loop runs over the full
deduplicated per-user history `deduped` (not over the truncated
`deduped[-max_recent_items:]`), summed over all users. -/
def co_counts (interactions : List Interaction) (a b : String) : ℕ :=
  ((usersOf interactions).map
    (fun u => pairCount (dedupFirst (history interactions u)) a b)).sum

/-- One recommendation dict
`{"product_id": …, "score": …, "reason": "item_cooccurrence"}`. -/
structure Recommendation where
  product_id : String
  score : ℚ
  reason : String
deriving DecidableEq, Repr

/-- `scores[c]` in `recommend`: total co-occurrence count of candidate `c`
summed over the user's stored recent items. -/
def rawScore (interactions : List Interaction) (max_recent_items : ℕ)
    (u c : String) : ℕ :=
  ((user_recent_items interactions max_recent_items u).map
    (fun item => co_counts interactions item c)).sum

/-- The distinct products of the filtered interaction table; every key the
`scores` Counter can acquire lies in this list. -/
def allItems (interactions : List Interaction) : List String :=
  dedupFirst ((positivesSorted interactions).map (·.product_id))

/-- The key set of the `scores` Counter as a list: products not in the
user's recent-item set that accumulated a positive count. -/
def candidateItems (interactions : List Interaction) (max_recent_items : ℕ)
    (u : String) : List String :=
  (allItems interactions).filter (fun c =>
    decide (c ∉ user_recent_items interactions max_recent_items u)
      && decide (0 < rawScore interactions max_recent_items u c))

/-- `max(scores.values())` (the batch maximum count; only used on a
nonempty Counter, where the fold over `ℕ` agrees with Python's `max`). -/
def maxRawScore (interactions : List Interaction) (max_recent_items : ℕ)
    (u : String) : ℕ :=
  ((candidateItems interactions max_recent_items u).map
    (rawScore interactions max_recent_items u)).foldr max 0

/-- `RecommendationAgent.recommend`: gather counts from the stored recent
items, skip candidates in the recent-item set, rank the Counter by
descending count (`most_common(top_k)`), and rescale by the batch maximum. -/
def recommend (interactions : List Interaction) (max_recent_items : ℕ)
    (u : String) (top_k : ℕ) : List Recommendation :=
  let user_items := user_recent_items interactions max_recent_items u
  if user_items.isEmpty then []
  else
    let cands := candidateItems interactions max_recent_items u
    if cands.isEmpty then []
    else
      let max_score := maxRawScore interactions max_recent_items u
      let ranked :=
        (sortDescBy (rawScore interactions max_recent_items u) cands).take top_k
      ranked.map (fun c =>
        { product_id := c
          score :=
            if 0 < max_score then
              (rawScore interactions max_recent_items u c : ℚ) / (max_score : ℚ)
            else 0
          reason := "item_cooccurrence" })

end RecommendationAgent

namespace SegmentationAgent

/-- Engagement tiers, ordered `low < mid < high`. -/
inductive Tier where
  | low
  | mid
  | high
deriving DecidableEq, Repr

/-- Numeric rank of a tier, for comparing tiers. -/
def tierRank : Tier → ℕ
  | .low => 0
  | .mid => 1
  | .high => 2

/-- The distinct users of the implicit-positive interaction rows (the index
of the `groupby("user_id")` aggregate; order is irrelevant below). -/
def segUsers (interactions : List Interaction) : List String :=
  dedupFirst ((interactions.filter (fun i => isPositive i.event_type)).map (·.user_id))

/-- `event_count` aggregate of `fit`: number of implicit-positive rows of
the user. -/
def event_count (interactions : List Interaction) (u : String) : ℕ :=
  (interactions.filter (fun i => isPositive i.event_type)).countP (fun i => i.user_id == u)

/-- The `event_count` column of the aggregate, one entry per user. -/
def countsList (interactions : List Interaction) : List ℕ :=
  (segUsers interactions).map (event_count interactions)

/-- Linear-interpolation quantile of a list of rationals, as computed by
`pandas.Series.quantile` with the default interpolation: at fractional
position `q * (n - 1)` of the ascending sort. -/
def quantileLinear (vs : List ℚ) (q : ℚ) : ℚ :=
  let s := sortAscBy (fun v => v) vs
  let h : ℚ := q * ((s.length : ℚ) - 1)
  let f : ℕ := (Rat.floor h).toNat
  let lo := s.getD f 0
  lo + (h - (f : ℚ)) * (s.getD (f + 1) lo - lo)

/-- The tercile thresholds `(t1, t2)` of `fit`: the 33rd/67th percentile of
the cohort's event counts when at least 3 users exist, otherwise the
degenerate `(0, max(counts) if counts else 1)` (the conditional in the
source binds to the second component only). -/
def thresholds (interactions : List Interaction) : ℚ × ℚ :=
  let counts := countsList interactions
  if 3 ≤ counts.length then
    ((quantileLinear (counts.map (fun c => (c : ℚ))) (1 / 3)),
     (quantileLinear (counts.map (fun c => (c : ℚ))) (2 / 3)))
  else
    (0, if counts.isEmpty then 1 else ((counts.foldr max 0 : ℕ) : ℚ))

/-- `engagement_segment(c)` of `fit`. -/
def engagement_segment (t1 t2 : ℚ) (c : ℕ) : Tier :=
  if (c : ℚ) ≤ t1 then .low
  else if (c : ℚ) ≤ t2 then .mid
  else .high

/-- Engagement tier assigned to a user by one `fit` over the table. -/
def userTier (interactions : List Interaction) (u : String) : Tier :=
  engagement_segment (thresholds interactions).1 (thresholds interactions).2
    (event_count interactions u)

end SegmentationAgent

namespace UserEmbeddingModel

/-- `UserEmbeddingModel.score(user_id, product_embedding)`: zero when the
product embedding is absent or the user has no embedding, otherwise the dot
product.  The embedding table is the model state `self.user_embeddings`. -/
def score (user_embeddings : String → Option (List ℚ)) (user_id : String)
    (product_embedding : Option (List ℚ)) : ℚ :=
  match product_embedding with
  | none => 0
  | some v =>
    match user_embeddings user_id with
    | none => 0
    | some u => dot u v

end UserEmbeddingModel

/-- A candidate dict as seen by `PersonalizationAgent.rerank`: the score
keys `raw_model_score` and `hybrid_score` may be absent (`item.get`), the
written keys are modelled as plain fields.  The `explanation` sub-dict
merely repeats `personalization_score` and is elided. -/
structure PItem where
  product_id : String
  raw_model_score : Option ℚ
  hybrid_score : Option ℚ
  score : ℚ
  personalization_score : ℚ
deriving DecidableEq, Repr

namespace PersonalizationAgent

/-- `PersonalizationAgent.rerank`: annotate every item with its
personalization score and blended final score, then re-sort by descending
final score (Python's `sorted` is stable). -/
def rerank (user_embeddings : String → Option (List ℚ))
    (product_embedding_map : String → Option (List ℚ))
    (user_id : String) (ranked_items : List PItem)
    (personalization_weight : ℚ) : List PItem :=
  let annotated := ranked_items.map (fun item =>
    let p_vec := product_embedding_map item.product_id
    let p_score := UserEmbeddingModel.score user_embeddings user_id p_vec
    let base := item.raw_model_score.getD (item.hybrid_score.getD 0)
    { item with
      personalization_score := p_score
      score := base + personalization_weight * p_score })
  sortDescBy (·.score) annotated

end PersonalizationAgent

/-- A catalog row, restricted to the columns the feature builder reads. -/
structure Product where
  product_id : String
  category : String
  price : ℚ
deriving DecidableEq, Repr

/-- The offline aggregates (`FeatureContext` dataclass); dictionary lookups
are modelled as `Option`-valued functions (`dict.get`). -/
structure FeatureContext where
  popularity : String → Option ℚ
  user_category_pref : String → Option (String → Option ℚ)

/-- Python `str.split()`: split on whitespace, dropping empty fragments. -/
def pySplit (s : String) : List String :=
  (s.split (fun c => c.isWhitespace)).filter (fun t => t ≠ "")

/-- `price_match_indicator(query, price)` from the feature builder. -/
def price_match_indicator (query : String) (price : ℚ) : ℚ :=
  let q := query.toLower
  if q.containsSubstr "cheap" || q.containsSubstr "budget" then
    if price < 100 then 1 else 0
  else if q.containsSubstr "premium" || q.containsSubstr "expensive" then
    if 300 ≤ price then 1 else 0
  else 0

/-- One feature row, in the fixed feature order of `build_feature_row`. -/
structure FeatureRow where
  bm25_score : ℚ
  cosine_similarity : ℚ
  hybrid_score : ℚ
  product_popularity : ℚ
  user_category_preference : ℚ
  query_length : ℚ
  price_match_indicator : ℚ
deriving DecidableEq, Repr

/-- `build_feature_row` from `utils/feature_engineering.py`. -/
def build_feature_row (query user_id : String) (product_row : Product)
    (bm25_score cosine_similarity hybrid_score : ℚ)
    (context : FeatureContext) : FeatureRow :=
  { bm25_score := bm25_score
    cosine_similarity := cosine_similarity
    hybrid_score := hybrid_score
    product_popularity := (context.popularity product_row.product_id).getD 0
    user_category_preference :=
      ((context.user_category_pref user_id).getD (fun _ => none)
        product_row.category).getD 0
    query_length := ((pySplit query).length : ℚ)
    price_match_indicator := price_match_indicator query product_row.price }

/-- `to_feature_matrix`: the rows flattened into the fixed column order. -/
def to_feature_matrix (rows : List FeatureRow) : List (List ℚ) :=
  rows.map (fun r =>
    [r.bm25_score, r.cosine_similarity, r.hybrid_score, r.product_popularity,
     r.user_category_preference, r.query_length, r.price_match_indicator])

/-- A candidate dict as seen by `RankingAgent.rerank`: scores from
retrieval, plus the keys the rerank loop writes. -/
structure RItem where
  product_id : String
  bm25_score : ℚ
  cosine_similarity : ℚ
  hybrid_score : ℚ
  raw_model_score : Option ℚ
  explanation : Option FeatureRow
deriving DecidableEq, Repr

/-- Sequence a list through an `Option`-producing step, failing as a whole
when any step fails (models a Python loop that may raise, such as a missing
dictionary key or an out-of-range index). -/
def mapOpt {α β : Type} (f : α → Option β) : List α → Option (List β)
  | [] => some []
  | x :: xs =>
    match f x with
    | none => none
    | some y =>
      match mapOpt f xs with
      | none => none
      | some ys => some (y :: ys)

namespace RankingAgent

/-- `product_map[pid]`: the catalog row of a candidate; a missing id raises
(`KeyError`), modelled as `none`.  Catalog ids are unique by the data-model
invariant, so first match is the dictionary entry. -/
def product_map (products : List Product) (pid : String) : Option Product :=
  products.find? (fun p => p.product_id == pid)

/-- `RankingAgent.rerank`: build one feature row per candidate, score the
batch with the ranking oracle `predict` (opaque learned model), attach
`raw_model_score` and the feature-row explanation back onto each candidate
(`scores[i]` raises when the oracle returns fewer scores than candidates),
and re-sort by descending model score (stable `sorted`). -/
def rerank (predict : List (List ℚ) → List ℚ) (query user_id : String)
    (candidates : List RItem) (products : List Product)
    (feature_context : FeatureContext) : Option (List RItem) :=
  match mapOpt (fun c =>
    (product_map products c.product_id).map (fun p =>
      build_feature_row query user_id p c.bm25_score c.cosine_similarity
        c.hybrid_score feature_context)) candidates with
  | none => none
  | some feature_rows =>
    let scores := predict (to_feature_matrix feature_rows)
    if candidates.length ≤ scores.length then
      let annotated := List.zipWith
        (fun (cfr : RItem × FeatureRow) s =>
          { cfr.1 with raw_model_score := some s, explanation := some cfr.2 })
        (candidates.zip feature_rows) scores
      some (sortDescBy (fun c => c.raw_model_score.getD 0) annotated)
    else none

end RankingAgent

namespace Metrics

/-- Gain of one relevance grade, `2**rel - 1`.  Grades are integral in
this system (binary 0/1 in evaluation, 0–3 in ranker training). -/
noncomputable def gain (r : ℤ) : ℝ :=
  (2 : ℝ) ^ r - 1

/-- Rank discount at 0-based position `i`:
`1 / np.log2(np.arange(2, size + 2))` at entry `i`, i.e. `1 / log2(i+2)`. -/
noncomputable def discount (i : ℕ) : ℝ :=
  1 / Real.logb 2 ((i : ℝ) + 2)

/-- `dcg_at_k(relevances, k)`: discounted cumulative gain over the first
`k` relevance grades. -/
noncomputable def dcg_at_k (relevances : List ℤ) (k : ℕ) : ℝ :=
  let rel := relevances.take k
  if rel.isEmpty then 0
  else ∑ i ∈ Finset.range rel.length, gain (rel.getD i 0) * discount i

/-- `ndcg_at_k(relevances, k)`: DCG against the ideal DCG of the
descending-sorted relevances, with the zero-ideal branch. -/
noncomputable def ndcg_at_k (relevances : List ℤ) (k : ℕ) : ℝ :=
  let ideal := dcg_at_k (sortDescInt relevances) k
  if ideal = 0 then 0 else dcg_at_k relevances k / ideal

/-- Position (1-indexed from `start`) of the first element of the list that
belongs to the relevant set. -/
def firstHitIndex : List String → Finset String → ℕ → Option ℕ
  | [], _, _ => none
  | x :: xs, relevant, i =>
    if x ∈ relevant then some i else firstHitIndex xs relevant (i + 1)

/-- `mrr_at_k`: reciprocal rank of the first relevant hit in the top `k`,
else 0. -/
def mrr_at_k (ranked_ids : List String) (relevant_ids : Finset String)
    (k : ℕ) : ℚ :=
  match firstHitIndex (ranked_ids.take k) relevant_ids 1 with
  | some i => 1 / (i : ℚ)
  | none => 0

/-- `recall_at_k`: relevant hits in the top `k` over the relevant set,
0 on an empty relevant set. -/
def recall_at_k (ranked_ids : List String) (relevant_ids : Finset String)
    (k : ℕ) : ℚ :=
  if relevant_ids = ∅ then 0
  else (((ranked_ids.take k).toFinset ∩ relevant_ids).card : ℚ)
    / (relevant_ids.card : ℚ)

/-- `precision_at_k`: relevant hits in the top `k` over `k`, 0 when
`k ≤ 0`. -/
def precision_at_k (ranked_ids : List String) (relevant_ids : Finset String)
    (k : ℕ) : ℚ :=
  if k = 0 then 0
  else (((ranked_ids.take k).toFinset ∩ relevant_ids).card : ℚ) / (k : ℚ)

end Metrics

/-! Concrete inputs used to instantiate the theorems below. -/

/-- One user who clicked three distinct products at distinct times. -/
def exThree : List Interaction :=
  [{ user_id := "u", product_id := "p1", event_type := "click", timestamp := 1 },
   { user_id := "u", product_id := "p2", event_type := "click", timestamp := 2 },
   { user_id := "u", product_id := "p3", event_type := "click", timestamp := 3 }]

/-- The two-user scenario of the repository's recommender test. -/
def exTwoUsers : List Interaction :=
  [{ user_id := "u1", product_id := "p1", event_type := "click", timestamp := 1 },
   { user_id := "u1", product_id := "p2", event_type := "purchase", timestamp := 2 },
   { user_id := "u1", product_id := "p3", event_type := "click", timestamp := 3 },
   { user_id := "u2", product_id := "p1", event_type := "click", timestamp := 1 },
   { user_id := "u2", product_id := "p4", event_type := "purchase", timestamp := 2 }]

/-- A user-embedding table holding a vector for `"alice"` only. -/
def exUserEmb : String → Option (List ℚ) :=
  fun u => if u = "alice" then some [1, 0] else none

/-- A product-embedding table holding a vector for `"p1"` only. -/
def exProdEmb : String → Option (List ℚ) :=
  fun p => if p = "p1" then some [3, 5] else none

/-- Two personalization candidates: one carries a model score, the other
only a hybrid score. -/
def exPItems : List PItem :=
  [{ product_id := "p1", raw_model_score := some 2, hybrid_score := none,
     score := 0, personalization_score := 0 },
   { product_id := "p2", raw_model_score := none, hybrid_score := some 1,
     score := 0, personalization_score := 0 }]

/-- Two ranking candidates over a two-product catalog. -/
def exRItems : List RItem :=
  [{ product_id := "p1", bm25_score := 1, cosine_similarity := 0,
     hybrid_score := 1/2, raw_model_score := none, explanation := none },
   { product_id := "p2", bm25_score := 0, cosine_similarity := 1,
     hybrid_score := 1/2, raw_model_score := none, explanation := none }]

/-- A two-product catalog matching `exRItems`. -/
def exProducts : List Product :=
  [{ product_id := "p1", category := "shoes", price := 50 },
   { product_id := "p2", category := "hats", price := 500 }]

/-- An empty feature context: every lookup misses. -/
def exContext : FeatureContext :=
  { popularity := fun _ => none, user_category_pref := fun _ => none }

/-- A ranking oracle assigning score 1 to every row. -/
def exPredict : List (List ℚ) → List ℚ :=
  fun rows => rows.map (fun _ => 1)

/-! Helper lemmas about the shared list machinery. -/

theorem insertDescBy_perm {α β : Type} [LinearOrder β] (key : α → β) (x : α)
    (l : List α) : (insertDescBy key x l).Perm (x :: l) := by
  induction l with
  | nil => exact List.Perm.refl _
  | cons y ys ih =>
    rw [insertDescBy]
    split
    · exact List.Perm.refl _
    · exact List.Perm.trans (List.Perm.cons y ih) (List.Perm.swap x y ys)

theorem sortDescBy_perm {α β : Type} [LinearOrder β] (key : α → β)
    (l : List α) : (sortDescBy key l).Perm l := by
  induction l with
  | nil => exact List.Perm.refl _
  | cons x xs ih =>
    exact List.Perm.trans (insertDescBy_perm key x (sortDescBy key xs))
      (List.Perm.cons x ih)

theorem mem_sortDescBy {α β : Type} [LinearOrder β] {key : α → β}
    {l : List α} {x : α} : x ∈ sortDescBy key l ↔ x ∈ l :=
  (sortDescBy_perm key l).mem_iff

theorem insertDescBy_pairwise {α β : Type} [LinearOrder β] {key : α → β}
    {x : α} {l : List α} (hl : l.Pairwise (fun a b => key b ≤ key a)) :
    (insertDescBy key x l).Pairwise (fun a b => key b ≤ key a) := by
  induction l with
  | nil => simp [insertDescBy]
  | cons y ys ih =>
    rw [insertDescBy]
    rcases List.pairwise_cons.mp hl with ⟨hy, hys⟩
    split
    case isTrue hc =>
      refine List.pairwise_cons.mpr ⟨?_, hl⟩
      intro z hz
      rcases List.mem_cons.mp hz with rfl | hz'
      · exact hc
      · exact le_trans (hy z hz') hc
    case isFalse hc =>
      refine List.pairwise_cons.mpr ⟨?_, ih hys⟩
      intro z hz
      have hz' : z ∈ x :: ys := (insertDescBy_perm key x ys).mem_iff.mp hz
      rcases List.mem_cons.mp hz' with rfl | hz''
      · exact le_of_lt (lt_of_not_le hc)
      · exact hy z hz''

theorem sortDescBy_pairwise {α β : Type} [LinearOrder β] (key : α → β)
    (l : List α) :
    (sortDescBy key l).Pairwise (fun a b => key b ≤ key a) := by
  induction l with
  | nil => simp [sortDescBy]
  | cons x xs ih => exact insertDescBy_pairwise ih

theorem sortAscBy_perm {α β : Type} [LinearOrder β] (key : α → β)
    (l : List α) : (sortAscBy key l).Perm l := by
  have hins : ∀ (x : α) (m : List α), (insertAscBy key x m).Perm (x :: m) := by
    intro x m
    induction m with
    | nil => exact List.Perm.refl _
    | cons y ys ih =>
      rw [insertAscBy]
      split
      · exact List.Perm.refl _
      · exact List.Perm.trans (List.Perm.cons y ih) (List.Perm.swap x y ys)
  induction l with
  | nil => exact List.Perm.refl _
  | cons x xs ih =>
    exact List.Perm.trans (hins x (sortAscBy key xs)) (List.Perm.cons x ih)

theorem sortDescBy_head_ge {α β : Type} [LinearOrder β] {key : α → β}
    {l : List α} {h : α} {t : List α} (e : sortDescBy key l = h :: t) :
    ∀ x ∈ l, key x ≤ key h := by
  intro x hx
  have hx' : x ∈ h :: t := by
    rw [← e]
    exact mem_sortDescBy.mpr hx
  rcases List.mem_cons.mp hx' with rfl | hxt
  · exact le_refl _
  · have hp := sortDescBy_pairwise key l
    rw [e] at hp
    exact List.rel_of_pairwise_cons hp hxt

theorem seed_le_foldl_max (x : ℚ) (xs : List ℚ) : x ≤ xs.foldl max x := by
  induction xs generalizing x with
  | nil => exact le_refl x
  | cons c cs ih => exact le_trans (le_max_left x c) (ih (max x c))

theorem le_foldl_max {x : ℚ} {xs : List ℚ} :
    ∀ a ∈ x :: xs, a ≤ xs.foldl max x := by
  induction xs generalizing x with
  | nil =>
    intro a ha
    exact le_of_eq (List.mem_singleton.mp ha)
  | cons c cs ih =>
    intro a ha
    rcases List.mem_cons.mp ha with rfl | ha'
    · exact le_trans (le_max_left a c) (seed_le_foldl_max _ cs)
    rcases List.mem_cons.mp ha' with rfl | ha''
    · exact le_trans (le_max_right x a) (seed_le_foldl_max _ cs)
    · exact ih a (List.mem_cons_of_mem _ ha'')

theorem foldl_max_mem (x : ℚ) (xs : List ℚ) : xs.foldl max x ∈ x :: xs := by
  induction xs generalizing x with
  | nil => simp
  | cons c cs ih =>
    have h := ih (max x c)
    rcases List.mem_cons.mp h with hm | hm
    · rcases max_choice x c with hxc | hxc <;> rw [List.foldl_cons, hm, hxc]
      · exact List.mem_cons_self _ _
      · exact List.mem_cons_of_mem _ (List.mem_cons_self _ _)
    · exact List.mem_cons_of_mem _ (List.mem_cons_of_mem _ hm)

theorem foldl_min_seed (x : ℚ) (xs : List ℚ) : xs.foldl min x ≤ x := by
  induction xs generalizing x with
  | nil => exact le_refl x
  | cons c cs ih => exact le_trans (ih (min x c)) (min_le_left x c)

theorem foldl_min_le {x : ℚ} {xs : List ℚ} :
    ∀ a ∈ x :: xs, xs.foldl min x ≤ a := by
  induction xs generalizing x with
  | nil =>
    intro a ha
    exact le_of_eq (List.mem_singleton.mp ha).symm
  | cons c cs ih =>
    intro a ha
    rcases List.mem_cons.mp ha with rfl | ha'
    · exact le_trans (foldl_min_seed _ cs) (min_le_left a c)
    rcases List.mem_cons.mp ha' with rfl | ha''
    · exact le_trans (foldl_min_seed _ cs) (min_le_right x a)
    · exact ih a (List.mem_cons_of_mem _ ha'')

theorem foldl_min_mem (x : ℚ) (xs : List ℚ) : xs.foldl min x ∈ x :: xs := by
  induction xs generalizing x with
  | nil => simp
  | cons c cs ih =>
    have h := ih (min x c)
    rcases List.mem_cons.mp h with hm | hm
    · rcases min_choice x c with hxc | hxc <;> rw [List.foldl_cons, hm, hxc]
      · exact List.mem_cons_self _ _
      · exact List.mem_cons_of_mem _ (List.mem_cons_self _ _)
    · exact List.mem_cons_of_mem _ (List.mem_cons_of_mem _ hm)

theorem le_foldr_max_nat {a : ℕ} {l : List ℕ} (ha : a ∈ l) : a ≤ l.foldr max 0 := by
  induction l with
  | nil => cases ha
  | cons c cs ih =>
    rcases List.mem_cons.mp ha with rfl | h
    · exact le_max_left _ _
    · exact le_trans (ih h) (le_max_right _ _)

theorem foldr_max_nat_le {l : List ℕ} {m : ℕ} (h : ∀ a ∈ l, a ≤ m) :
    l.foldr max 0 ≤ m := by
  induction l with
  | nil => exact Nat.zero_le m
  | cons c cs ih =>
    exact max_le (h c (List.mem_cons_self _ _))
      (ih (fun a ha => h a (List.mem_cons_of_mem _ ha)))

theorem foldr_max_nat_eq {l : List ℕ} {m : ℕ} (hm : m ∈ l)
    (hall : ∀ a ∈ l, a ≤ m) : l.foldr max 0 = m :=
  le_antisymm (foldr_max_nat_le hall) (le_foldr_max_nat hm)

theorem mapExc_ok_of_no_error {ε α β : Type} {f : α → Except ε β}
    {g : α → β} (hf : ∀ a, f a = .ok (g a)) (l : List α) :
    mapExc f l = .ok (l.map g) := by
  induction l with
  | nil => rfl
  | cons x xs ih => simp [mapExc, hf x, ih]

theorem checkedDiv_ok {x y : ℚ} (hy : y ≠ 0) : checkedDiv x y = .ok (x / y) := by
  simp [checkedDiv, hy]

theorem getD_zipWith_q (f : ℚ → ℚ → ℚ) {l1 l2 : List ℚ} {i : ℕ}
    (h1 : i < l1.length) (h2 : i < l2.length) :
    (List.zipWith f l1 l2).getD i 0 = f (l1.getD i 0) (l2.getD i 0) := by
  have hz : i < (List.zipWith f l1 l2).length := by
    rw [List.length_zipWith]
    exact lt_min h1 h2
  rw [List.getD_eq_getElem _ _ hz, List.getD_eq_getElem _ _ h1,
    List.getD_eq_getElem _ _ h2]
  exact List.getElem_zipWith

namespace RetrievalAgent

theorem bm25Normalize_cons (x : ℚ) (xs : List ℚ) :
    ∃ m, npMax (x :: xs) = .ok m ∧ m ∈ x :: xs ∧ (∀ a ∈ x :: xs, a ≤ m) ∧
      bm25Normalize (x :: xs) =
        .ok (if 0 < m then (x :: xs).map (· / m) else x :: xs) := by
  refine ⟨xs.foldl max x, rfl, foldl_max_mem x xs, le_foldl_max, ?_⟩
  by_cases h : 0 < xs.foldl max x
  · rw [if_pos h]
    simp only [bm25Normalize, npMax, if_pos h]
    exact mapExc_ok_of_no_error (fun a => checkedDiv_ok (ne_of_gt h)) _
  · rw [if_neg h]
    simp only [bm25Normalize, npMax, if_neg h]

theorem denseNormalize_cons (x : ℚ) (xs : List ℚ) :
    ∃ dmin dmax, npMin (x :: xs) = .ok dmin ∧ npMax (x :: xs) = .ok dmax ∧
      dmin ∈ x :: xs ∧ dmax ∈ x :: xs ∧
      (∀ a ∈ x :: xs, dmin ≤ a ∧ a ≤ dmax) ∧
      denseNormalize (x :: xs) =
        .ok (if dmin < dmax then (x :: xs).map (fun s => (s - dmin) / (dmax - dmin))
             else x :: xs) := by
  refine ⟨xs.foldl min x, xs.foldl max x, rfl, rfl, foldl_min_mem x xs,
    foldl_max_mem x xs, fun a ha => ⟨foldl_min_le a ha, le_foldl_max a ha⟩, ?_⟩
  by_cases h : xs.foldl min x < xs.foldl max x
  · rw [if_pos h]
    simp only [denseNormalize, npMin, npMax, if_pos h]
    exact mapExc_ok_of_no_error
      (fun a => checkedDiv_ok (sub_ne_zero_of_ne (ne_of_gt h))) _
  · rw [if_neg h]
    simp only [denseNormalize, npMin, npMax, if_neg h]

theorem bm25Normalize_error {l : List ℚ} {e : NpError}
    (h : bm25Normalize l = .error e) : e = .emptyReduce := by
  match l with
  | [] =>
    simp only [bm25Normalize, npMax] at h
    cases h
    rfl
  | x :: xs =>
    obtain ⟨m, -, -, -, hok⟩ := bm25Normalize_cons x xs
    rw [hok] at h
    cases h

theorem denseNormalize_error {l : List ℚ} {e : NpError}
    (h : denseNormalize l = .error e) : e = .emptyReduce := by
  match l with
  | [] =>
    simp only [denseNormalize, npMin] at h
    cases h
    rfl
  | x :: xs =>
    obtain ⟨dmin, dmax, -, -, -, -, -, hok⟩ := denseNormalize_cons x xs
    rw [hok] at h
    cases h

theorem bm25Normalize_length {l bn : List ℚ}
    (h : bm25Normalize l = .ok bn) : bn.length = l.length := by
  match l with
  | [] =>
    simp only [bm25Normalize, npMax] at h
    cases h
  | x :: xs =>
    obtain ⟨m, -, -, -, hok⟩ := bm25Normalize_cons x xs
    rw [hok] at h
    cases h
    split <;> simp

theorem denseNormalize_length {l dn : List ℚ}
    (h : denseNormalize l = .ok dn) : dn.length = l.length := by
  match l with
  | [] =>
    simp only [denseNormalize, npMin] at h
    cases h
  | x :: xs =>
    obtain ⟨dmin, dmax, -, -, -, -, -, hok⟩ := denseNormalize_cons x xs
    rw [hok] at h
    cases h
    split <;> simp

theorem mem_argsortDesc {v : List ℚ} {i : ℕ} :
    i ∈ argsortDesc v ↔ i < v.length := by
  rw [argsortDesc, mem_sortDescBy, List.mem_range]

/-- Claim C1: on every fitted catalog, `retrieve` returns at most `top_k`
candidates; each carries the full-catalog-normalized BM25 and dense scores
of its position and the hybrid score
`alpha * bm25_norm + (1 - alpha) * dense_norm`; normalization happens over
the whole catalog before the truncation to `top_k`; and the output is
sorted by descending hybrid score. -/
theorem retrieval_contract (ids : List String) (bm25 dense : List ℚ)
    (k : ℕ) (α : ℚ) (hlen : bm25.length = dense.length)
    (_h0 : 0 ≤ α) (_h1 : α ≤ 1) (out : List RetrievalResult)
    (hout : retrieve ids bm25 dense k α = .ok out) :
    ∃ bn dn : List ℚ,
      bm25Normalize bm25 = .ok bn ∧ denseNormalize dense = .ok dn ∧
      bn.length = bm25.length ∧ dn.length = dense.length ∧
      out.length ≤ k ∧
      (∀ r ∈ out, ∃ i, i < bn.length ∧
        r.product_id = ids.getD i "" ∧
        r.bm25_score = bn.getD i 0 ∧
        r.cosine_similarity = dn.getD i 0 ∧
        r.hybrid_score = α * bn.getD i 0 + (1 - α) * dn.getD i 0) ∧
      out.Pairwise (fun r s => s.hybrid_score ≤ r.hybrid_score) := by
  cases hbn : bm25Normalize bm25 with
  | error e =>
    rw [retrieve, hbn] at hout
    cases hout
  | ok bn =>
  cases hdn : denseNormalize dense with
  | error e =>
    rw [retrieve, hbn, hdn] at hout
    cases hout
  | ok dn =>
  rw [retrieve, hbn, hdn] at hout
  set hyb := List.zipWith (fun b d => α * b + (1 - α) * d) bn dn with hhyb
  have hbl : bn.length = bm25.length := bm25Normalize_length hbn
  have hdl : dn.length = dense.length := denseNormalize_length hdn
  have hyblen : hyb.length = bn.length := by
    rw [hhyb, List.length_zipWith, hbl, hdl, ← hlen, min_self]
  have hout' : ((argsortDesc hyb).take k).map (fun i =>
      ({ product_id := ids.getD i ""
         bm25_score := bn.getD i 0
         cosine_similarity := dn.getD i 0
         hybrid_score := hyb.getD i 0 } : RetrievalResult)) = out := by
    injection hout
  refine ⟨bn, dn, rfl, rfl, hbl, hdl, ?_, ?_, ?_⟩
  · rw [← hout', List.length_map, List.length_take]
    exact inf_le_left
  · intro r hr
    rw [← hout'] at hr
    obtain ⟨i, hi, hir⟩ := List.mem_map.mp hr
    have hmem : i ∈ argsortDesc hyb := (List.take_sublist _ _).mem hi
    have hilt : i < hyb.length := mem_argsortDesc.mp hmem
    refine ⟨i, by rwa [hyblen] at hilt, ?_, ?_, ?_, ?_⟩
    · rw [← hir]
    · rw [← hir]
    · rw [← hir]
    · rw [← hir]
      show hyb.getD i 0 = α * bn.getD i 0 + (1 - α) * dn.getD i 0
      have hib : i < bn.length := by rwa [hyblen] at hilt
      have hid : i < dn.length := by
        rw [hdl, ← hlen, ← hbl]
        exact hib
      exact getD_zipWith_q (fun b d => α * b + (1 - α) * d) hib hid
  · rw [← hout']
    have hps : ((argsortDesc hyb).take k).Pairwise
        (fun i j => hyb.getD j 0 ≤ hyb.getD i 0) :=
      (sortDescBy_pairwise (fun i => hyb.getD i 0) _).sublist (List.take_sublist _ _)
    exact List.pairwise_map.mpr hps

/-- Witness for C1 at a concrete input: a two-product catalog, `top_k = 1`,
`alpha = 1/2`. -/
theorem retrieval_contract_witness :
    ∃ bn dn : List ℚ,
      bm25Normalize [1, 0] = .ok bn ∧ denseNormalize [0, 1] = .ok dn ∧
      bn.length = 2 ∧ dn.length = 2 ∧
      ([⟨"a", 1, 0, 1/2⟩] : List RetrievalResult).length ≤ 1 ∧
      (∀ r ∈ ([⟨"a", 1, 0, 1/2⟩] : List RetrievalResult), ∃ i, i < bn.length ∧
        r.product_id = ["a", "b"].getD i "" ∧
        r.bm25_score = bn.getD i 0 ∧
        r.cosine_similarity = dn.getD i 0 ∧
        r.hybrid_score = (1/2 : ℚ) * bn.getD i 0 + (1 - 1/2) * dn.getD i 0) ∧
      ([⟨"a", 1, 0, 1/2⟩] : List RetrievalResult).Pairwise
        (fun r s => s.hybrid_score ≤ r.hybrid_score) :=
  retrieval_contract ["a", "b"] [1, 0] [0, 1] 1 (1/2) rfl
    (by norm_num) (by norm_num) [⟨"a", 1, 0, 1/2⟩] (by
      norm_num [retrieve, bm25Normalize, npMax, mapExc, checkedDiv,
        denseNormalize, npMin, argsortDesc, sortDescBy, insertDescBy,
        List.getD, max_def, min_def])

/-- Claim C5 (amended): every normalization step of `retrieve` branches on
its denominator and never divides by zero, on any input whatsoever; on a
nonempty catalog the BM25 scores are divided by their maximum exactly when
that maximum is positive (otherwise kept), the dense scores are min-max
normalized exactly when `max > min` (otherwise kept), and an all-zero BM25
score vector — the empty-query case — is kept unchanged.  (An empty catalog
faults in the empty-array `max` reduction instead of returning an empty
result; see the counterexample.) -/
theorem retrieval_no_division_by_zero (ids : List String)
    (bm25 dense : List ℚ) (k : ℕ) (α : ℚ) :
    retrieve ids bm25 dense k α ≠ .error .divByZero ∧
    (∀ x xs, bm25 = x :: xs → ∃ m, npMax bm25 = .ok m ∧
      bm25Normalize bm25 = .ok (if 0 < m then bm25.map (· / m) else bm25)) ∧
    (∀ x xs, dense = x :: xs → ∃ dmin dmax, npMin dense = .ok dmin ∧
      npMax dense = .ok dmax ∧
      denseNormalize dense =
        .ok (if dmin < dmax then dense.map (fun s => (s - dmin) / (dmax - dmin))
             else dense)) ∧
    ((∀ s ∈ bm25, s = 0) → bm25 ≠ [] → bm25Normalize bm25 = .ok bm25) := by
  refine ⟨?_, ?_, ?_, ?_⟩
  · cases hbn : bm25Normalize bm25 with
    | error e =>
      rw [retrieve, hbn]
      have := bm25Normalize_error hbn
      subst this
      intro h
      cases h
    | ok bn =>
      cases hdn : denseNormalize dense with
      | error e =>
        rw [retrieve, hbn, hdn]
        have := denseNormalize_error hdn
        subst this
        intro h
        cases h
      | ok dn =>
        rw [retrieve, hbn, hdn]
        intro h
        cases h
  · intro x xs hx
    subst hx
    obtain ⟨m, hm, -, -, hok⟩ := bm25Normalize_cons x xs
    exact ⟨m, hm, hok⟩
  · intro x xs hx
    subst hx
    obtain ⟨dmin, dmax, hmn, hmx, -, -, -, hok⟩ := denseNormalize_cons x xs
    exact ⟨dmin, dmax, hmn, hmx, hok⟩
  · intro hz hne
    match bm25, hne with
    | x :: xs, _ =>
      obtain ⟨m, hm, hmem, -, hok⟩ := bm25Normalize_cons x xs
      have hm0 : m = 0 := hz m hmem
      rw [hok, hm0]
      simp

/-- Witness for C5 at a concrete input: an all-zero BM25 vector (empty
query) over a two-item catalog is kept unchanged and nothing divides by
zero. -/
theorem retrieval_no_division_by_zero_witness :
    retrieve ["a", "b"] [0, 0] [1, 1] 5 (1/2) ≠ .error .divByZero ∧
    bm25Normalize [0, 0] = .ok [0, 0] := by
  refine ⟨(retrieval_no_division_by_zero ["a", "b"] [0, 0] [1, 1] 5 (1/2)).1, ?_⟩
  exact (retrieval_no_division_by_zero ["a", "b"] [0, 0] [1, 1] 5 (1/2)).2.2.2
    (by simp) (by simp)

/-- Counterexample to C5 as frozen: a `retrieve` call over an empty catalog
does not yield a defined empty result — the empty-array `max` reduction
faults (with numpy's empty-reduction error, not a division by zero). -/
theorem retrieve_empty_catalog_faults :
    retrieve [] [] [] 10 (1/2) = .error .emptyReduce ∧
    ∀ out : List RetrievalResult, retrieve [] [] [] 10 (1/2) ≠ .ok out := by
  constructor
  · rfl
  · intro out h
    rw [show retrieve ([] : List String) [] [] 10 (1/2) = .error .emptyReduce
      from rfl] at h
    cases h

end RetrievalAgent

/-! Facts about first-occurrence deduplication. -/

theorem mem_dedupFirstAux {x : String} : ∀ (l seen : List String),
    (x ∈ dedupFirstAux seen l ↔ x ∈ l ∧ x ∉ seen) := by
  intro l
  induction l with
  | nil =>
    intro seen
    simp [dedupFirstAux]
  | cons y ys ih =>
    intro seen
    rw [dedupFirstAux]
    split
    case isTrue hy =>
      rw [ih seen]
      constructor
      · rintro ⟨h1, h2⟩
        exact ⟨List.mem_cons_of_mem _ h1, h2⟩
      · rintro ⟨h1, h2⟩
        rcases List.mem_cons.mp h1 with rfl | h1'
        · exact absurd hy h2
        · exact ⟨h1', h2⟩
    case isFalse hy =>
      constructor
      · intro h
        rcases List.mem_cons.mp h with rfl | h'
        · exact ⟨List.mem_cons_self _ _, hy⟩
        · rcases (ih (y :: seen)).mp h' with ⟨h1, h2⟩
          exact ⟨List.mem_cons_of_mem _ h1,
            fun hs => h2 (List.mem_cons_of_mem _ hs)⟩
      · rintro ⟨h1, h2⟩
        rcases List.mem_cons.mp h1 with rfl | h1'
        · exact List.mem_cons_self _ _
        · by_cases hxy : x = y
          · subst hxy
            exact List.mem_cons_self _ _
          · refine List.mem_cons_of_mem _ ((ih (y :: seen)).mpr ⟨h1', ?_⟩)
            intro hs
            rcases List.mem_cons.mp hs with h | h
            · exact hxy h
            · exact h2 h

theorem mem_dedupFirst {x : String} {l : List String} :
    x ∈ dedupFirst l ↔ x ∈ l := by
  rw [dedupFirst, mem_dedupFirstAux l []]
  simp

theorem dedupFirstAux_nodup : ∀ (l seen : List String),
    (dedupFirstAux seen l).Nodup := by
  intro l
  induction l with
  | nil =>
    intro seen
    simp [dedupFirstAux]
  | cons y ys ih =>
    intro seen
    rw [dedupFirstAux]
    split
    case isTrue _ => exact ih seen
    case isFalse hy =>
      refine List.nodup_cons.mpr ⟨?_, ih (y :: seen)⟩
      intro hmem
      exact ((mem_dedupFirstAux ys (y :: seen)).mp hmem).2
        (List.mem_cons_self _ _)

theorem dedupFirst_nodup (l : List String) : (dedupFirst l).Nodup :=
  dedupFirstAux_nodup l []

namespace RecommendationAgent

theorem countP_eq_indicator {t : List String} (ht : t.Nodup) (b : String) :
    t.countP (fun y => decide (y = b)) = if b ∈ t then 1 else 0 := by
  induction t with
  | nil => simp
  | cons c cs ih =>
    rcases List.nodup_cons.mp ht with ⟨hc, hcs⟩
    rw [List.countP_cons, ih hcs]
    by_cases hcb : c = b
    · subst hcb
      simp [hc]
    · have hiff : b ∈ c :: cs ↔ b ∈ cs := by
        constructor
        · intro h
          rcases List.mem_cons.mp h with rfl | h'
          · exact absurd rfl hcb
          · exact h'
        · exact fun h => List.mem_cons_of_mem _ h
      simp only [hcb, decide_eq_true_eq, if_neg, decide_eq_false_iff_not]
      rw [if_congr hiff rfl rfl]
      simp [hcb]

theorem pairCount_eq_indicator {xs : List String} (h : xs.Nodup) (a b : String) :
    pairCount xs a b = if a ≠ b ∧ a ∈ xs ∧ b ∈ xs then 1 else 0 := by
  induction xs with
  | nil => simp [pairCount]
  | cons x t ih =>
    rcases List.nodup_cons.mp h with ⟨hx, ht⟩
    rw [pairCount]
    by_cases hab : a = b
    · subst hab
      have h1 : (t.countP fun y =>
          decide (((x = a ∧ y = a) ∨ (x = a ∧ y = a)) ∧ x ≠ y)) = 0 := by
        apply List.countP_eq_zero.mpr
        intro y hy
        simp only [decide_eq_true_eq]
        rintro ⟨⟨rfl, rfl⟩ | ⟨rfl, rfl⟩, hxy⟩ <;> exact hxy rfl
      rw [h1, ih ht]
      simp
    · by_cases hxa : x = a
      · have hxb : ¬ x = b := fun hc => hab (hxa.symm.trans hc)
        have h1 : (t.countP fun y =>
            decide (((x = a ∧ y = b) ∨ (x = b ∧ y = a)) ∧ x ≠ y)) =
            t.countP (fun y => decide (y = b)) := by
          apply List.countP_congr
          intro y hy
          simp only [decide_eq_true_eq]
          constructor
          · rintro ⟨⟨-, hb⟩ | ⟨hb, -⟩, -⟩
            · exact hb
            · exact absurd hb hxb
          · intro hyb
            exact ⟨Or.inl ⟨hxa, hyb⟩, fun he => hxb (he.trans hyb)⟩
        have h2 : pairCount t a b = 0 := by
          rw [ih ht]
          have hat : a ∉ t := hxa ▸ hx
          simp [hat]
        rw [h1, h2, countP_eq_indicator ht b]
        have hiff : (b ∈ t) ↔ (a ≠ b ∧ a ∈ x :: t ∧ b ∈ x :: t) := by
          constructor
          · intro hbt
            exact ⟨hab, hxa ▸ List.mem_cons_self x t, List.mem_cons_of_mem _ hbt⟩
          · rintro ⟨-, -, hb⟩
            rcases List.mem_cons.mp hb with rfl | hb'
            · exact absurd rfl hxb
            · exact hb'
        rw [if_congr hiff rfl rfl]
        simp
      · by_cases hxb : x = b
        · have h1 : (t.countP fun y =>
              decide (((x = a ∧ y = b) ∨ (x = b ∧ y = a)) ∧ x ≠ y)) =
              t.countP (fun y => decide (y = a)) := by
            apply List.countP_congr
            intro y hy
            simp only [decide_eq_true_eq]
            constructor
            · rintro ⟨⟨ha, -⟩ | ⟨-, ha⟩, -⟩
              · exact absurd ha hxa
              · exact ha
            · intro hya
              refine ⟨Or.inr ⟨hxb, hya⟩, fun he => hxa (he.trans hya)⟩
          have h2 : pairCount t a b = 0 := by
            rw [ih ht]
            have hbt : b ∉ t := hxb ▸ hx
            simp [hbt]
          rw [h1, h2, countP_eq_indicator ht a]
          have hiff : (a ∈ t) ↔ (a ≠ b ∧ a ∈ x :: t ∧ b ∈ x :: t) := by
            constructor
            · intro hat
              exact ⟨hab, List.mem_cons_of_mem _ hat, hxb ▸ List.mem_cons_self x t⟩
            · rintro ⟨-, ha, -⟩
              rcases List.mem_cons.mp ha with rfl | ha'
              · exact absurd rfl hxa
              · exact ha'
          rw [if_congr hiff rfl rfl]
          simp
        · have h1 : (t.countP fun y =>
              decide (((x = a ∧ y = b) ∨ (x = b ∧ y = a)) ∧ x ≠ y)) = 0 := by
            apply List.countP_eq_zero.mpr
            intro y hy
            simp only [decide_eq_true_eq]
            rintro ⟨⟨ha, -⟩ | ⟨hb, -⟩, -⟩
            · exact hxa ha
            · exact hxb hb
          rw [h1, ih ht]
          have hiff : (a ≠ b ∧ a ∈ t ∧ b ∈ t) ↔
              (a ≠ b ∧ a ∈ x :: t ∧ b ∈ x :: t) := by
            constructor
            · rintro ⟨h1', h2', h3'⟩
              exact ⟨h1', List.mem_cons_of_mem _ h2', List.mem_cons_of_mem _ h3'⟩
            · rintro ⟨h1', h2', h3'⟩
              refine ⟨h1', ?_, ?_⟩
              · rcases List.mem_cons.mp h2' with rfl | h'
                · exact absurd rfl hxa
                · exact h'
              · rcases List.mem_cons.mp h3' with rfl | h'
                · exact absurd rfl hxb
                · exact h'
          rw [if_congr hiff rfl rfl]
          simp

theorem sum_map_eq_countP {α : Type} (l : List α) (f : α → ℕ) (p : α → Bool)
    (h : ∀ u ∈ l, f u = if p u then 1 else 0) :
    (l.map f).sum = l.countP p := by
  induction l with
  | nil => simp
  | cons x xs ih =>
    rw [List.map_cons, List.sum_cons, List.countP_cons,
      h x (List.mem_cons_self _ _),
      ih (fun u hu => h u (List.mem_cons_of_mem _ hu))]
    by_cases hp : p x <;> simp [hp, Nat.add_comm]

/-- Claim C3 (amended): the symmetric co-occurrence counters are built from
each user's full deduplicated implicit-positive history — not from the
truncation to the most recent `N` items, which applies only to the stored
recent-item list: the counter cell `(a, b)` equals the number of users
whose deduplicated history contains both of the distinct items `a` and
`b`; the counters are symmetric and zero on the diagonal. -/
theorem co_counts_pair_source (interactions : List Interaction) (a b : String) :
    co_counts interactions a b =
      (usersOf interactions).countP (fun u =>
        decide (a ≠ b ∧ a ∈ dedupFirst (history interactions u) ∧
          b ∈ dedupFirst (history interactions u))) ∧
    co_counts interactions a b = co_counts interactions b a ∧
    co_counts interactions a a = 0 := by
  have hchar : ∀ (a b : String), co_counts interactions a b =
      (usersOf interactions).countP (fun u =>
        decide (a ≠ b ∧ a ∈ dedupFirst (history interactions u) ∧
          b ∈ dedupFirst (history interactions u))) := by
    intro a b
    rw [co_counts]
    apply sum_map_eq_countP
    intro u hu
    rw [pairCount_eq_indicator (dedupFirst_nodup _) a b]
    by_cases hc : a ≠ b ∧ a ∈ dedupFirst (history interactions u) ∧
        b ∈ dedupFirst (history interactions u) <;> simp [hc]
  refine ⟨hchar a b, ?_, ?_⟩
  · rw [hchar a b, hchar b a]
    apply List.countP_congr
    intro u hu
    simp only [decide_eq_true_eq]
    constructor <;> rintro ⟨h1, h2, h3⟩ <;> exact ⟨Ne.symm h1, h3, h2⟩
  · rw [hchar a a]
    apply List.countP_eq_zero.mpr
    intro u hu
    simp

/-- Counterexample to C3 as frozen: fitting on one user who clicked the
three distinct products `p1, p2, p3` with `max_recent_items = 2` stores
`[p2, p3]` as the truncated history, yet the counter cell `(p1, p3)` is
incremented — the pair loop runs over the full deduplicated history, so
the truncation-dropped `p1` still contributes pair counts (no such pair
exists inside the truncated history). -/
theorem co_counts_truncation_counterexample :
    co_counts exThree "p1" "p3" = 1 ∧
    "p1" ∉ user_recent_items exThree 2 "u" ∧
    pairCount (user_recent_items exThree 2 "u") "p1" "p3" = 0 := by
  decide

theorem mem_candidateItems {interactions : List Interaction} {maxN : ℕ}
    {u c : String} (hc : c ∈ candidateItems interactions maxN u) :
    c ∉ user_recent_items interactions maxN u ∧
    0 < rawScore interactions maxN u c := by
  have h := (List.mem_filter.mp hc).2
  rw [Bool.and_eq_true] at h
  exact ⟨of_decide_eq_true h.1, of_decide_eq_true h.2⟩

theorem recommend_mem_cands {interactions : List Interaction} {maxN : ℕ}
    {u : String} {k : ℕ} {r : Recommendation}
    (hr : r ∈ recommend interactions maxN u k) :
    ∃ c ∈ candidateItems interactions maxN u,
      r = { product_id := c
            score := if 0 < maxRawScore interactions maxN u then
                (rawScore interactions maxN u c : ℚ) /
                  (maxRawScore interactions maxN u : ℚ)
              else 0
            reason := "item_cooccurrence" } := by
  simp only [recommend] at hr
  by_cases h1 : (user_recent_items interactions maxN u).isEmpty
  · rw [if_pos h1] at hr
    cases hr
  · rw [if_neg h1] at hr
    by_cases h2 : (candidateItems interactions maxN u).isEmpty
    · rw [if_pos h2] at hr
      cases hr
    · rw [if_neg h2] at hr
      obtain ⟨c, hc, heq⟩ := List.mem_map.mp hr
      exact ⟨c, mem_sortDescBy.mp ((List.take_sublist _ _).mem hc), heq.symm⟩

/-- Claim C4 (amended): `recommend` never returns a product from the user's
stored recent-item list — the deduplicated implicit-positive history
truncated to the most recent `max_recent_items` products.  Products the
user interacted with that were dropped by the truncation can still be
returned (see the counterexample to the unamended claim). -/
theorem recommend_excludes_recent (interactions : List Interaction)
    (maxN : ℕ) (u : String) (k : ℕ) :
    ∀ r ∈ recommend interactions maxN u k,
      r.product_id ∉ user_recent_items interactions maxN u := by
  intro r hr
  obtain ⟨c, hc, rfl⟩ := recommend_mem_cands hr
  exact (mem_candidateItems hc).1

/-- Witness for C4 (amended) at a concrete input: the recommendation `p1`
of the three-product single-user fit is not in the stored recent-item
list. -/
theorem recommend_excludes_recent_witness :
    (recommend exThree 2 "u" 10).map (·.product_id) = ["p1"] ∧
    "p1" ∉ user_recent_items exThree 2 "u" := by
  refine ⟨by decide, ?_⟩
  have hm : "p1" ∈ (recommend exThree 2 "u" 10).map (·.product_id) := by decide
  obtain ⟨r, hr, hpid⟩ := List.mem_map.mp hm
  intro hmem
  exact recommend_excludes_recent exThree 2 "u" 10 r hr (by rwa [hpid])

/-- Counterexample to C4 as frozen: fit on one user who clicked the three
distinct products `p1, p2, p3` with `max_recent_items = 2`; `recommend`
returns `p1`, a product of that very user's interaction history (it was
merely dropped from the stored recent-item list by the truncation, while
its co-occurrence counts survived). -/
theorem recommend_returns_interacted_item :
    (recommend exThree 2 "u" 10).map (·.product_id) = ["p1"] ∧
    (∃ i ∈ exThree, i.user_id = "u" ∧ i.product_id = "p1") := by
  decide

/-- Claim C7: with a nonempty candidate set (and a positive `top_k`) the
first recommendation — the one with the highest summed count — has
normalized score exactly 1; every returned score is the candidate's raw
summed count divided by the batch maximum count; an empty candidate set
yields an empty list. -/
theorem recommend_score_normalization (interactions : List Interaction)
    (maxN : ℕ) (u : String) (k : ℕ) :
    (candidateItems interactions maxN u = [] →
      recommend interactions maxN u k = []) ∧
    (candidateItems interactions maxN u ≠ [] → 1 ≤ k →
      ∃ r rest, recommend interactions maxN u k = r :: rest ∧ r.score = 1) ∧
    (∀ r ∈ recommend interactions maxN u k,
      r.score = (rawScore interactions maxN u r.product_id : ℚ) /
        (maxRawScore interactions maxN u : ℚ)) := by
  refine ⟨?_, ?_, ?_⟩
  · intro hce
    simp only [recommend]
    by_cases h1 : (user_recent_items interactions maxN u).isEmpty
    · rw [if_pos h1]
    · rw [if_neg h1, if_pos (List.isEmpty_iff.mpr hce)]
  · intro hne hk
    have h1 : ¬ (user_recent_items interactions maxN u).isEmpty = true := by
      intro h1
      apply hne
      have hzero : ∀ c, rawScore interactions maxN u c = 0 := by
        intro c
        rw [rawScore, List.isEmpty_iff.mp h1]
        rfl
      rw [candidateItems]
      apply List.filter_eq_nil_iff.mpr
      intro a ha
      simp [hzero a]
    have h2 : ¬ (candidateItems interactions maxN u).isEmpty = true := by
      intro h2
      exact hne (List.isEmpty_iff.mp h2)
    obtain ⟨c, t, hsort⟩ : ∃ c t,
        sortDescBy (rawScore interactions maxN u)
          (candidateItems interactions maxN u) = c :: t := by
      cases hs : sortDescBy (rawScore interactions maxN u)
          (candidateItems interactions maxN u) with
      | nil =>
        exfalso
        apply hne
        have hperm := sortDescBy_perm (rawScore interactions maxN u)
          (candidateItems interactions maxN u)
        rw [hs] at hperm
        exact (hperm.symm).eq_nil
      | cons c t => exact ⟨c, t, rfl⟩
    have hcmem : c ∈ candidateItems interactions maxN u :=
      mem_sortDescBy.mp (hsort ▸ List.mem_cons_self c t)
    have hcraw : 0 < rawScore interactions maxN u c := (mem_candidateItems hcmem).2
    have hmax : maxRawScore interactions maxN u = rawScore interactions maxN u c := by
      apply foldr_max_nat_eq
      · exact List.mem_map_of_mem _ hcmem
      · intro x hx
        obtain ⟨d, hd, rfl⟩ := List.mem_map.mp hx
        exact sortDescBy_head_ge hsort d hd
    match k, hk with
    | (k' + 1), _ =>
      refine ⟨{ product_id := c
                score := if 0 < maxRawScore interactions maxN u then
                    (rawScore interactions maxN u c : ℚ) /
                      (maxRawScore interactions maxN u : ℚ)
                  else 0
                reason := "item_cooccurrence" },
        (t.take k').map (fun c' =>
          { product_id := c'
            score := if 0 < maxRawScore interactions maxN u then
                (rawScore interactions maxN u c' : ℚ) /
                  (maxRawScore interactions maxN u : ℚ)
              else 0
            reason := "item_cooccurrence" }), ?_, ?_⟩
      · simp only [recommend]
        rw [if_neg h1, if_neg h2, hsort, List.take_succ_cons, List.map_cons]
      · show (if 0 < maxRawScore interactions maxN u then
            (rawScore interactions maxN u c : ℚ) /
              (maxRawScore interactions maxN u : ℚ)
          else 0) = 1
        rw [if_pos (hmax ▸ hcraw), hmax]
        exact div_self (by exact_mod_cast hcraw.ne')
  · intro r hr
    obtain ⟨c, hc, rfl⟩ := recommend_mem_cands hr
    have hcraw : 0 < rawScore interactions maxN u c := (mem_candidateItems hc).2
    have hle : rawScore interactions maxN u c ≤ maxRawScore interactions maxN u :=
      le_foldr_max_nat (List.mem_map_of_mem _ hc)
    show (if 0 < maxRawScore interactions maxN u then
        (rawScore interactions maxN u c : ℚ) /
          (maxRawScore interactions maxN u : ℚ)
      else 0) = _
    rw [if_pos (lt_of_lt_of_le hcraw hle)]

/-- Witness for C7 at the repository's own test scenario: user `u2` has a
nonempty candidate set and the top recommendation scores exactly 1. -/
theorem recommend_score_normalization_witness :
    candidateItems exTwoUsers 20 "u2" ≠ [] ∧
    (∃ r rest, recommend exTwoUsers 20 "u2" 3 = r :: rest ∧ r.score = 1) := by
  refine ⟨by decide, ?_⟩
  exact (recommend_score_normalization exTwoUsers 20 "u2" 3).2.1 (by decide)
    (by norm_num)

end RecommendationAgent

namespace SegmentationAgent

theorem engagement_segment_monotone (t1 t2 : ℚ) {c1 c2 : ℕ} (hc : c2 < c1) :
    tierRank (engagement_segment t1 t2 c2) ≤
      tierRank (engagement_segment t1 t2 c1) := by
  have hc' : (c2 : ℚ) < (c1 : ℚ) := by exact_mod_cast hc
  unfold engagement_segment
  split_ifs <;> simp only [tierRank] <;> (try norm_num) <;> (exfalso; linarith)

/-- Claim C9: engagement-tier assignment within one fit is monotone in the
implicit-positive event count — a user with strictly more events is never
placed in a strictly lower tier — and with fewer than 3 users (but at
least one) the thresholds degrade to `t1 = 0` and
`t2 = max(event_count)`. -/
theorem segmentation_tiers (interactions : List Interaction) :
    (∀ u v, u ∈ segUsers interactions → v ∈ segUsers interactions →
      event_count interactions v < event_count interactions u →
      ¬ (tierRank (userTier interactions u) <
          tierRank (userTier interactions v))) ∧
    (countsList interactions ≠ [] → (countsList interactions).length < 3 →
      thresholds interactions =
        (0, (((countsList interactions).foldr max 0 : ℕ) : ℚ))) := by
  constructor
  · intro u v _hu _hv hcount
    exact not_lt.mpr (engagement_segment_monotone _ _ hcount)
  · intro hne h3
    simp only [thresholds]
    rw [if_neg (not_le.mpr h3),
      if_neg (fun h => hne (List.isEmpty_iff.mp h))]

/-- Witness for C9 at a concrete input: a two-user fit (degenerate
threshold branch) where `u1` has 3 events and `u2` has 2. -/
theorem segmentation_tiers_witness :
    event_count exTwoUsers "u2" < event_count exTwoUsers "u1" ∧
    ¬ (tierRank (userTier exTwoUsers "u1") <
        tierRank (userTier exTwoUsers "u2")) ∧
    thresholds exTwoUsers = (0, 3) := by
  refine ⟨by decide, ?_, ?_⟩
  · exact (segmentation_tiers exTwoUsers).1 "u1" "u2" (by decide) (by decide)
      (by decide)
  · have h := (segmentation_tiers exTwoUsers).2 (by decide) (by decide)
    rw [h]
    have hmax : (countsList exTwoUsers).foldr max 0 = 3 := by decide
    rw [hmax]
    norm_num

end SegmentationAgent

namespace PersonalizationAgent

/-- Claim C8: after `PersonalizationAgent.rerank`, every item's final score
is `base_score + personalization_weight * affinity`, where the affinity is
the dot product of the user and product embeddings and is 0 whenever either
embedding is absent, and the base score is the item's `raw_model_score`
when present, else its `hybrid_score` (else 0); the output is re-sorted by
descending final score. -/
theorem rerank_final_score (userEmb prodEmb : String → Option (List ℚ))
    (user_id : String) (ranked_items : List PItem) (w : ℚ) :
    (∀ it ∈ rerank userEmb prodEmb user_id ranked_items w,
      it.personalization_score =
        UserEmbeddingModel.score userEmb user_id (prodEmb it.product_id) ∧
      it.score = it.raw_model_score.getD (it.hybrid_score.getD 0) +
        w * it.personalization_score) ∧
    (∀ pid, prodEmb pid = none →
      UserEmbeddingModel.score userEmb user_id (prodEmb pid) = 0) ∧
    (userEmb user_id = none → ∀ pv,
      UserEmbeddingModel.score userEmb user_id pv = 0) ∧
    (∀ pid uvec pvec, prodEmb pid = some pvec → userEmb user_id = some uvec →
      UserEmbeddingModel.score userEmb user_id (prodEmb pid) = dot uvec pvec) ∧
    (rerank userEmb prodEmb user_id ranked_items w).Pairwise
      (fun a b => b.score ≤ a.score) := by
  refine ⟨?_, ?_, ?_, ?_, ?_⟩
  · intro it hit
    simp only [rerank] at hit
    rw [mem_sortDescBy] at hit
    obtain ⟨item, hm, rfl⟩ := List.mem_map.mp hit
    exact ⟨rfl, rfl⟩
  · intro pid h
    simp [UserEmbeddingModel.score, h]
  · intro h pv
    cases pv with
    | none => rfl
    | some v => simp [UserEmbeddingModel.score, h]
  · intro pid uvec pvec h1 h2
    rw [h1]
    simp [UserEmbeddingModel.score, h2]
  · simp only [rerank]
    exact sortDescBy_pairwise _ _

/-- Witness for C8 at a concrete input: for user `alice`, the product `p2`
has no embedding so its affinity is 0, `p1` has affinity `1/2`, and the
reranked output is sorted by descending final score. -/
theorem rerank_final_score_witness :
    UserEmbeddingModel.score exUserEmb "alice" (exProdEmb "p2") = 0 ∧
    UserEmbeddingModel.score exUserEmb "alice" (exProdEmb "p1") = dot [1, 0] [3, 5] ∧
    (rerank exUserEmb exProdEmb "alice" exPItems (1/2)).Pairwise
      (fun a b => b.score ≤ a.score) := by
  refine ⟨?_, ?_, (rerank_final_score exUserEmb exProdEmb "alice" exPItems (1/2)).2.2.2.2⟩
  · exact (rerank_final_score exUserEmb exProdEmb "alice" exPItems (1/2)).2.1
      "p2" (by decide)
  · exact (rerank_final_score exUserEmb exProdEmb "alice" exPItems (1/2)).2.2.2.1
      "p1" [1, 0] [3, 5] (by decide) (by decide)

end PersonalizationAgent

theorem mapOpt_length {α β : Type} {f : α → Option β} :
    ∀ {l : List α} {out : List β}, mapOpt f l = some out → out.length = l.length := by
  intro l
  induction l with
  | nil =>
    intro out h
    simp only [mapOpt] at h
    cases h
    rfl
  | cons x xs ih =>
    intro out h
    simp only [mapOpt] at h
    cases hfx : f x with
    | none =>
      rw [hfx] at h
      cases h
    | some y =>
      rw [hfx] at h
      cases hm : mapOpt f xs with
      | none =>
        rw [hm] at h
        cases h
      | some ys =>
        rw [hm] at h
        cases h
        simp [ih hm]

theorem map_fst_zipWith_zip {α β γ δ : Type} (g : α × β → γ → δ)
    (pf : δ → String) (pa : α → String)
    (hpf : ∀ ab c, pf (g ab c) = pa ab.1) :
    ∀ (l1 : List α) (l2 : List β) (l3 : List γ),
      l1.length = l2.length → l1.length ≤ l3.length →
      (List.zipWith g (l1.zip l2) l3).map pf = l1.map pa := by
  intro l1
  induction l1 with
  | nil =>
    intro l2 l3 _ _
    simp
  | cons a as ih =>
    intro l2 l3 hlen hle
    cases l2 with
    | nil => simp at hlen
    | cons b bs =>
      cases l3 with
      | nil => simp at hle
      | cons c cs =>
        simp only [List.zip_cons_cons, List.zipWith_cons_cons, List.map_cons, hpf]
        rw [ih bs cs (by simpa using hlen) (by simpa using hle)]

/-- Claim C10: both re-ranking stages preserve the candidate set — whenever
they return, the returned items' product ids are a permutation of the
incoming items' product ids (nothing dropped, duplicated or added). -/
theorem rerank_preserves_candidates :
    (∀ (predict : List (List ℚ) → List ℚ) (query user_id : String)
      (candidates : List RItem) (products : List Product)
      (ctx : FeatureContext) (out : List RItem),
      RankingAgent.rerank predict query user_id candidates products ctx = some out →
      (out.map (·.product_id)).Perm (candidates.map (·.product_id))) ∧
    (∀ (userEmb prodEmb : String → Option (List ℚ)) (user_id : String)
      (items : List PItem) (w : ℚ),
      ((PersonalizationAgent.rerank userEmb prodEmb user_id items w).map
        (·.product_id)).Perm (items.map (·.product_id))) := by
  constructor
  · intro predict query user_id candidates products ctx out hout
    simp only [RankingAgent.rerank] at hout
    cases hfr : mapOpt (fun c =>
        (RankingAgent.product_map products c.product_id).map (fun p =>
          build_feature_row query user_id p c.bm25_score c.cosine_similarity
            c.hybrid_score ctx)) candidates with
    | none =>
      rw [hfr] at hout
      cases hout
    | some feature_rows =>
      rw [hfr] at hout
      have hout' : (if candidates.length ≤
          (predict (to_feature_matrix feature_rows)).length then
          some (sortDescBy (fun c : RItem => c.raw_model_score.getD 0)
            (List.zipWith
              (fun (cfr : RItem × FeatureRow) s =>
                { cfr.1 with raw_model_score := some s, explanation := some cfr.2 })
              (candidates.zip feature_rows)
              (predict (to_feature_matrix feature_rows))))
        else none) = some out := hout
      by_cases hlen : candidates.length ≤
          (predict (to_feature_matrix feature_rows)).length
      · rw [if_pos hlen] at hout'
        injection hout' with hout
        subst hout
        have hperm := (sortDescBy_perm
          (fun c : RItem => c.raw_model_score.getD 0)
          (List.zipWith
            (fun (cfr : RItem × FeatureRow) s =>
              { cfr.1 with raw_model_score := some s, explanation := some cfr.2 })
            (candidates.zip feature_rows)
            (predict (to_feature_matrix feature_rows)))).map (·.product_id)
        have hmap := map_fst_zipWith_zip
          (fun (cfr : RItem × FeatureRow) s =>
            ({ cfr.1 with raw_model_score := some s, explanation := some cfr.2 } : RItem))
          (·.product_id) (·.product_id) (fun ab c => rfl) candidates
          feature_rows (predict (to_feature_matrix feature_rows))
          (mapOpt_length hfr).symm hlen
        rw [hmap] at hperm
        exact hperm
      · rw [if_neg hlen] at hout'
        cases hout' 
  · intro userEmb prodEmb user_id items w
    simp only [PersonalizationAgent.rerank]
    have hperm := (sortDescBy_perm (fun it : PItem => it.score)
      (items.map (fun item =>
        { item with
          personalization_score :=
            UserEmbeddingModel.score userEmb user_id (prodEmb item.product_id)
          score := item.raw_model_score.getD (item.hybrid_score.getD 0) +
            w * UserEmbeddingModel.score userEmb user_id
              (prodEmb item.product_id) }))).map (·.product_id)
    rw [List.map_map] at hperm
    exact hperm

/-- Witness for C10 at a concrete input: a successful ranking rerank over
the two-candidate catalog, and a personalization rerank, both preserving
the product-id multiset. -/
theorem rerank_preserves_candidates_witness :
    ∃ out, RankingAgent.rerank exPredict "red shoes" "alice" exRItems
        exProducts exContext = some out ∧
      (out.map (·.product_id)).Perm (exRItems.map (·.product_id)) ∧
      ((PersonalizationAgent.rerank exUserEmb exProdEmb "alice" exPItems
          (1/2)).map (·.product_id)).Perm (exPItems.map (·.product_id)) := by
  have hs : (RankingAgent.rerank exPredict "red shoes" "alice" exRItems
      exProducts exContext).isSome = true := by decide
  obtain ⟨out, hout⟩ := Option.isSome_iff_exists.mp hs
  exact ⟨out, hout,
    rerank_preserves_candidates.1 exPredict "red shoes" "alice" exRItems
      exProducts exContext out hout,
    rerank_preserves_candidates.2 exUserEmb exProdEmb "alice" exPItems (1/2)⟩

namespace Metrics

theorem discount_pos (i : ℕ) : 0 < discount i := by
  rw [discount]
  apply div_pos one_pos
  apply Real.logb_pos (by norm_num)
  have h : (0 : ℝ) ≤ (i : ℝ) := Nat.cast_nonneg i
  linarith

theorem discount_antitone {i j : ℕ} (hij : i ≤ j) : discount j ≤ discount i := by
  rw [discount, discount]
  apply one_div_le_one_div_of_le
  · apply Real.logb_pos (by norm_num)
    have h : (0 : ℝ) ≤ (i : ℝ) := Nat.cast_nonneg i
    linarith
  · apply Real.logb_le_logb_of_le (by norm_num)
    · have h : (0 : ℝ) ≤ (i : ℝ) := Nat.cast_nonneg i
      linarith
    · have h : (i : ℝ) ≤ (j : ℝ) := Nat.cast_le.mpr hij
      linarith

theorem gain_nonneg {r : ℤ} (hr : 0 ≤ r) : 0 ≤ gain r := by
  rw [gain]
  have h : (2 : ℝ) ^ (0 : ℤ) ≤ 2 ^ r :=
    zpow_le_zpow_right₀ (by norm_num) hr
  rw [zpow_zero] at h
  linarith

theorem gain_mono {r s : ℤ} (hrs : r ≤ s) : gain r ≤ gain s := by
  rw [gain, gain]
  have h : (2 : ℝ) ^ r ≤ (2 : ℝ) ^ s := zpow_le_zpow_right₀ (by norm_num) hrs
  linarith

theorem firstHitIndex_bounds :
    ∀ (l : List String) (rel : Finset String) (start i : ℕ),
      firstHitIndex l rel start = some i → start ≤ i ∧ i < start + l.length := by
  intro l
  induction l with
  | nil =>
    intro rel start i h
    exact absurd h (by simp [firstHitIndex])
  | cons x xs ih =>
    intro rel start i h
    rw [firstHitIndex] at h
    split at h
    case isTrue =>
      injection h with h
      subst h
      refine ⟨le_refl _, ?_⟩
      simp only [List.length_cons]
      omega
    case isFalse =>
      obtain ⟨h1, h2⟩ := ih rel (start + 1) i h
      refine ⟨by omega, ?_⟩
      simp only [List.length_cons]
      omega

theorem mrr_at_k_range (ranked : List String) (relevant : Finset String)
    (k : ℕ) :
    mrr_at_k ranked relevant k = 0 ∨
      (1 / (k : ℚ) ≤ mrr_at_k ranked relevant k ∧
        mrr_at_k ranked relevant k ≤ 1) := by
  rw [mrr_at_k]
  cases hfh : firstHitIndex (ranked.take k) relevant 1 with
  | none => exact Or.inl rfl
  | some i =>
    obtain ⟨h1, h2⟩ := firstHitIndex_bounds (ranked.take k) relevant 1 i hfh
    have hik : i ≤ k := by
      have := List.length_take k ranked
      omega
    have hi0 : (0 : ℚ) < (i : ℚ) := by exact_mod_cast h1
    refine Or.inr ⟨?_, ?_⟩
    · exact one_div_le_one_div_of_le hi0 (by exact_mod_cast hik)
    · calc 1 / (i : ℚ) ≤ 1 / 1 :=
        one_div_le_one_div_of_le one_pos (by exact_mod_cast h1)
      _ = 1 := by norm_num

theorem recall_at_k_range (ranked : List String) (relevant : Finset String)
    (k : ℕ) :
    0 ≤ recall_at_k ranked relevant k ∧ recall_at_k ranked relevant k ≤ 1 := by
  rw [recall_at_k]
  split
  case isTrue => norm_num
  case isFalse h =>
    have hpos : (0 : ℚ) < (relevant.card : ℚ) := by
      have := Finset.card_pos.mpr (Finset.nonempty_iff_ne_empty.mpr h)
      exact_mod_cast this
    constructor
    · positivity
    · rw [div_le_one hpos]
      have hsub : (ranked.take k).toFinset ∩ relevant ⊆ relevant :=
        Finset.inter_subset_right
      have := Finset.card_le_card hsub
      exact_mod_cast this

theorem precision_at_k_range (ranked : List String) (relevant : Finset String)
    {k : ℕ} (hk : 1 ≤ k) :
    0 ≤ precision_at_k ranked relevant k ∧
      precision_at_k ranked relevant k ≤ 1 := by
  rw [precision_at_k, if_neg (by omega)]
  have hk0 : (0 : ℚ) < (k : ℚ) := by exact_mod_cast hk
  constructor
  · positivity
  · rw [div_le_one hk0]
    have hsub : (ranked.take k).toFinset ∩ relevant ⊆
        (ranked.take k).toFinset := Finset.inter_subset_left
    have h1 : ((ranked.take k).toFinset ∩ relevant).card ≤
        (ranked.take k).toFinset.card :=
      Finset.card_le_card hsub
    have h2 : (ranked.take k).toFinset.card ≤ (ranked.take k).length :=
      List.toFinset_card_le _
    have h3 : (ranked.take k).length ≤ k := by
      rw [List.length_take]
      exact inf_le_left
    exact_mod_cast le_trans h1 (le_trans h2 h3)

theorem sum_le_sorted_take :
    ∀ (y : List ℝ), y.Pairwise (fun a b => b ≤ a) → (∀ v ∈ y, 0 ≤ v) →
      ∀ (S : Multiset ℝ), S ≤ ↑y → ∀ (p : ℕ), Multiset.card S ≤ p →
      S.sum ≤ (y.take p).sum := by
  intro y
  induction y with
  | nil =>
    intro _ _ S hS p _
    have hS0 : S = 0 := Multiset.le_zero.mp (by rwa [Multiset.coe_nil] at hS)
    subst hS0
    simp
  | cons y0 ys ih =>
    intro hsorted hpos S hS p hcard
    rcases List.pairwise_cons.mp hsorted with ⟨hy0, hys⟩
    cases p with
    | zero =>
      have hS0 : S = 0 := Multiset.card_eq_zero.mp (Nat.le_zero.mp hcard)
      subst hS0
      simp
    | succ p' =>
      by_cases hmem : y0 ∈ S
      · have hS' : S.erase y0 ≤ ↑ys := by
          have h := Multiset.erase_le_erase y0 hS
          rwa [← Multiset.cons_coe, Multiset.erase_cons_head] at h
        have hcard' : Multiset.card (S.erase y0) ≤ p' := by
          rw [Multiset.card_erase_of_mem hmem, Nat.pred_eq_sub_one]
          omega
        have hsum := ih hys (fun v hv => hpos v (List.mem_cons_of_mem _ hv))
          (S.erase y0) hS' p' hcard'
        have hSsum : S.sum = y0 + (S.erase y0).sum := by
          conv_lhs => rw [← Multiset.cons_erase hmem]
          rw [Multiset.sum_cons]
        rw [hSsum, List.take_succ_cons, List.sum_cons]
        exact add_le_add_left hsum y0
      · have hS' : S ≤ ↑ys := by
          rw [Multiset.le_iff_count]
          intro a
          have hc := Multiset.le_iff_count.mp hS a
          rw [← Multiset.cons_coe, Multiset.count_cons] at hc
          by_cases hay : a = y0
          · subst hay
            rw [Multiset.count_eq_zero.mpr hmem]
            exact Nat.zero_le _
          · simpa [hay] using hc
        have hsum := ih hys (fun v hv => hpos v (List.mem_cons_of_mem _ hv))
          S hS' (p' + 1) hcard
        have hstep : (ys.take (p' + 1)).sum ≤ y0 + (ys.take p').sum := by
          by_cases hlen : p' < ys.length
          · rw [List.sum_take_succ ys p' hlen]
            have h := hy0 _ (List.getElem_mem hlen)
            linarith
          · have hle : ys.length ≤ p' := by omega
            rw [List.take_of_length_le hle, List.take_of_length_le (by omega)]
            have h0 : 0 ≤ y0 := hpos y0 (List.mem_cons_self _ _)
            linarith
        rw [List.take_succ_cons, List.sum_cons]
        exact le_trans hsum hstep

theorem take_sum_le {X Y : List ℝ} (hperm : X.Perm Y)
    (hsorted : Y.Pairwise (fun a b => b ≤ a)) (hpos : ∀ v ∈ Y, 0 ≤ v)
    (p : ℕ) : (X.take p).sum ≤ (Y.take p).sum := by
  have hS : (↑(X.take p) : Multiset ℝ) ≤ ↑Y := by
    rw [Multiset.coe_le]
    exact List.Subperm.trans (List.Sublist.subperm (List.take_sublist p X))
      hperm.subperm
  have h := sum_le_sorted_take Y hsorted hpos (↑(X.take p)) hS p
    (by rw [Multiset.coe_card, List.length_take]; exact inf_le_left)
  rwa [Multiset.sum_coe] at h

theorem weighted_sum_mono :
    ∀ (m : ℕ) (a b d : ℕ → ℝ),
      (∀ p, p ≤ m → (∑ i ∈ Finset.range p, a i) ≤ ∑ i ∈ Finset.range p, b i) →
      (∀ i, i < m → 0 ≤ d i) →
      (∀ i j, i ≤ j → j < m → d j ≤ d i) →
      (∑ i ∈ Finset.range m, a i * d i) ≤ ∑ i ∈ Finset.range m, b i * d i := by
  intro m
  induction m with
  | zero =>
    intro a b d _ _ _
    simp
  | succ m ih =>
    intro a b d hpre hd0 hdec
    have hexp : ∀ (f : ℕ → ℝ), (∑ i ∈ Finset.range (m + 1), f i * d i) =
        (∑ i ∈ Finset.range m, f i * (d i - d m)) +
          d m * ∑ i ∈ Finset.range (m + 1), f i := by
      intro f
      rw [Finset.sum_range_succ (fun i => f i * d i), Finset.sum_range_succ f]
      rw [mul_add, Finset.mul_sum]
      have hsub : ∑ i ∈ Finset.range m, f i * (d i - d m) =
          (∑ i ∈ Finset.range m, f i * d i) -
            ∑ i ∈ Finset.range m, d m * f i := by
        rw [← Finset.sum_sub_distrib]
        apply Finset.sum_congr rfl
        intro i _
        ring
      rw [hsub]
      ring
    rw [hexp a, hexp b]
    apply add_le_add
    · apply ih
      · intro p hp
        exact hpre p (by omega)
      · intro i hi
        have h1 := hdec i m (by omega) (by omega)
        linarith
      · intro i j hij hj
        have h1 := hdec i j hij (by omega)
        linarith
    · exact mul_le_mul_of_nonneg_left (hpre (m + 1) (le_refl _))
        (hd0 m (by omega))

theorem sum_range_getD (f : ℤ → ℝ) :
    ∀ (p : ℕ) (l : List ℤ), p ≤ l.length →
      (∑ i ∈ Finset.range p, f (l.getD i 0)) = ((l.map f).take p).sum := by
  intro p
  induction p with
  | zero =>
    intro l _
    simp
  | succ p ih =>
    intro l hp
    rw [Finset.sum_range_succ, ih l (by omega)]
    have hlt : p < (l.map f).length := by
      rw [List.length_map]
      omega
    rw [List.sum_take_succ _ p hlt]
    congr 1
    rw [List.getElem_map, List.getD_eq_getElem l 0 (by omega)]

theorem sortDescInt_perm (l : List ℤ) : (sortDescInt l).Perm l :=
  sortDescBy_perm _ l

theorem sortDescInt_sorted (l : List ℤ) :
    (sortDescInt l).Pairwise (fun a b => b ≤ a) :=
  sortDescBy_pairwise (fun r => r) l

theorem dcg_nonneg {rel : List ℤ} (hrel : ∀ r ∈ rel, 0 ≤ r) (k : ℕ) :
    0 ≤ dcg_at_k rel k := by
  simp only [dcg_at_k]
  split
  · exact le_refl 0
  · apply Finset.sum_nonneg
    intro i hi
    rw [Finset.mem_range] at hi
    have hmem : (rel.take k).getD i 0 ∈ rel := by
      rw [List.getD_eq_getElem _ _ hi]
      exact (List.take_sublist k rel).mem (List.getElem_mem hi)
    exact mul_nonneg (gain_nonneg (hrel _ hmem)) (le_of_lt (discount_pos i))

theorem dcg_le_ideal {rel : List ℤ} (hrel : ∀ r ∈ rel, 0 ≤ r) (k : ℕ) :
    dcg_at_k rel k ≤ dcg_at_k (sortDescInt rel) k := by
  have hlen : (sortDescInt rel).length = rel.length :=
    (sortDescInt_perm rel).length_eq
  have hlen_take : ((sortDescInt rel).take k).length = (rel.take k).length := by
    rw [List.length_take, List.length_take, hlen]
  simp only [dcg_at_k]
  by_cases hempty : (rel.take k).isEmpty
  · rw [if_pos hempty]
    have hempty2 : ((sortDescInt rel).take k).isEmpty := by
      rw [List.isEmpty_iff] at hempty ⊢
      apply List.eq_nil_of_length_eq_zero
      rw [hlen_take, hempty, List.length_nil]
    rw [if_pos hempty2]
  · rw [if_neg hempty]
    have hempty2 : ¬ ((sortDescInt rel).take k).isEmpty := by
      rw [List.isEmpty_iff] at hempty ⊢
      intro h
      apply hempty
      apply List.eq_nil_of_length_eq_zero
      rw [← hlen_take, h, List.length_nil]
    rw [if_neg hempty2, hlen_take]
    have hmk : (rel.take k).length ≤ k := by
      rw [List.length_take]
      exact inf_le_left
    apply weighted_sum_mono (rel.take k).length
      (fun i => gain ((rel.take k).getD i 0))
      (fun i => gain (((sortDescInt rel).take k).getD i 0)) discount
    · intro p hp
      rw [sum_range_getD gain p (rel.take k) hp,
        sum_range_getD gain p ((sortDescInt rel).take k) (by rw [hlen_take]; exact hp)]
      rw [List.map_take, List.take_take, min_eq_left (le_trans hp hmk)]
      rw [List.map_take, List.take_take, min_eq_left (le_trans hp hmk)]
      apply take_sum_le ((sortDescInt_perm rel).map gain).symm
      · exact List.pairwise_map.mpr ((sortDescInt_sorted rel).imp
          (fun h => gain_mono h))
      · intro v hv
        obtain ⟨r, hr, rfl⟩ := List.mem_map.mp hv
        exact gain_nonneg (hrel r ((sortDescInt_perm rel).mem_iff.mp hr))
    · intro i _
      exact le_of_lt (discount_pos i)
    · intro i j hij _
      exact discount_antitone hij

/-- Claim C6 (amended): for every relevance list with nonnegative grades,
every ranked list, every relevant set and every `k ≥ 1`: `ndcg_at_k`,
`recall_at_k` and `precision_at_k` lie in `[0, 1]`; `mrr_at_k` is either 0
or in `[1/k, 1]`; `ndcg_at_k` is 0 whenever the ideal DCG is 0; and
`recall_at_k` is 0 on an empty relevant set — each division is guarded by
its branch.  (For negative relevance grades the NDCG bound fails; see the
counterexample.) -/
theorem metric_ranges (relevances : List ℤ) (ranked : List String)
    (relevant : Finset String) (k : ℕ)
    (hrel : ∀ r ∈ relevances, 0 ≤ r) (hk : 1 ≤ k) :
    0 ≤ ndcg_at_k relevances k ∧ ndcg_at_k relevances k ≤ 1 ∧
    0 ≤ recall_at_k ranked relevant k ∧ recall_at_k ranked relevant k ≤ 1 ∧
    0 ≤ precision_at_k ranked relevant k ∧
    precision_at_k ranked relevant k ≤ 1 ∧
    (mrr_at_k ranked relevant k = 0 ∨
      (1 / (k : ℚ) ≤ mrr_at_k ranked relevant k ∧
        mrr_at_k ranked relevant k ≤ 1)) ∧
    (dcg_at_k (sortDescInt relevances) k = 0 → ndcg_at_k relevances k = 0) ∧
    (relevant = ∅ → recall_at_k ranked relevant k = 0) := by
  have hrec := recall_at_k_range ranked relevant k
  have hprec := precision_at_k_range ranked relevant hk
  have hsorted_nonneg : ∀ r ∈ sortDescInt relevances, 0 ≤ r :=
    fun r hr => hrel r ((sortDescInt_perm relevances).mem_iff.mp hr)
  refine ⟨?_, ?_, hrec.1, hrec.2, hprec.1, hprec.2,
    mrr_at_k_range ranked relevant k, ?_, ?_⟩
  · simp only [ndcg_at_k]
    split
    · exact le_refl 0
    · exact div_nonneg (dcg_nonneg hrel k) (dcg_nonneg hsorted_nonneg k)
  · simp only [ndcg_at_k]
    split
    · exact zero_le_one
    case isFalse h =>
      have hpos : 0 < dcg_at_k (sortDescInt relevances) k :=
        lt_of_le_of_ne (dcg_nonneg hsorted_nonneg k) (Ne.symm h)
      rw [div_le_one hpos]
      exact dcg_le_ideal hrel k
  · intro h
    simp only [ndcg_at_k]
    rw [if_pos h]
  · intro h
    rw [recall_at_k, if_pos h]

/-- Witness for C6 (amended) at a concrete input: a binary relevance list
with the target at rank 1, `k = 1`, and a relevant set hitting the ranked
list. -/
theorem metric_ranges_witness :
    0 ≤ ndcg_at_k [1, 0] 1 ∧ ndcg_at_k [1, 0] 1 ≤ 1 ∧
    0 ≤ recall_at_k ["a", "b"] {"a"} 1 ∧ recall_at_k ["a", "b"] {"a"} 1 ≤ 1 ∧
    0 ≤ precision_at_k ["a", "b"] {"a"} 1 ∧
    precision_at_k ["a", "b"] {"a"} 1 ≤ 1 ∧
    (mrr_at_k ["a", "b"] {"a"} 1 = 0 ∨
      (1 / ((1 : ℕ) : ℚ) ≤ mrr_at_k ["a", "b"] {"a"} 1 ∧
        mrr_at_k ["a", "b"] {"a"} 1 ≤ 1)) ∧
    (dcg_at_k (sortDescInt [1, 0]) 1 = 0 → ndcg_at_k [1, 0] 1 = 0) ∧
    (({"a"} : Finset String) = ∅ → recall_at_k ["a", "b"] {"a"} 1 = 0) :=
  metric_ranges [1, 0] ["a", "b"] {"a"} 1 (by decide) (by decide)

/-- Counterexample to C6 as frozen: on the (negative-grade) relevance list
`[-2, -1]` with `k = 1`, `ndcg_at_k` returns `3/2`, outside `[0, 1]` — the
claim's range guarantee only holds for nonnegative relevance grades. -/
theorem ndcg_exceeds_one_on_negative_relevance :
    ndcg_at_k [-2, -1] 1 = 3 / 2 ∧ ¬ (ndcg_at_k [-2, -1] 1 ≤ 1) := by
  have hsort : sortDescInt [-2, -1] = [-1, -2] := by
    norm_num [sortDescInt, sortDescBy, insertDescBy]
  have hd1 : dcg_at_k [-2, -1] 1 = -(3/4) := by
    simp only [dcg_at_k]
    norm_num [List.take, gain, discount, Finset.sum_range_one, List.getD,
      Real.logb_self_eq_one]
  have hd2 : dcg_at_k [-1, -2] 1 = -(1/2) := by
    simp only [dcg_at_k]
    norm_num [List.take, gain, discount, Finset.sum_range_one, List.getD,
      Real.logb_self_eq_one]
  have hmain : ndcg_at_k [-2, -1] 1 = 3 / 2 := by
    simp only [ndcg_at_k, hsort, hd1, hd2]
    rw [if_neg (by norm_num)]
    norm_num
  refine ⟨hmain, ?_⟩
  rw [hmain]
  norm_num

end Metrics

end SearchEngine
